import Mathlib

/-!
Verification of the `RandomAccessMap` container from
`src/lib/utils/RandomAccessMap.ts` of the snake-game repository.

The container extends a JavaScript `Map` with a dense key array
(`keysArray`) and a key-to-index map (`keyIndexMap`), giving O(1)
uniformly random entry selection and swap-with-last O(1) deletion.

Shallow embedding conventions:
* a JavaScript `Map` is modelled as an association list whose keys are
  kept unique by the operations themselves (exactly as a real `Map`
  never holds a duplicate key);
* mutation is modelled by state passing: every mutating method takes the
  container and returns the new container (plus its return value);
* the random draw `Math.floor(Math.random() * n)` is modelled by passing
  the drawn index explicitly as an argument to `randomEntry`.
-/

namespace SnakeRam

variable {K V : Type} [DecidableEq K]

/-- An association list modelling a JavaScript `Map K V`.  All reachable
values have pairwise distinct keys, which is maintained by the
operations below (a JS `Map` never stores a key twice). -/
abbrev JsMap (K V : Type) : Type := List (K × V)

namespace JsMap

/-- Method `Map.prototype.get`: first binding of the key, `none` plays the role
of JavaScript `undefined`. -/
def getOp : JsMap K V → K → Option V
  | [], _ => none
  | (k', v) :: rest, k => if k' = k then some v else getOp rest k

/-- Method `Map.prototype.has`. -/
def hasOp (m : JsMap K V) (k : K) : Bool :=
  (m.getOp k).isSome

/-- Method `Map.prototype.set`: overwrite the value in place if the key is
present, otherwise append the new binding at the end (JS `Map` keeps
insertion order). -/
def setOp : JsMap K V → K → V → JsMap K V
  | [], k, v => [(k, v)]
  | (k', v') :: rest, k, v =>
      if k' = k then (k', v) :: rest else (k', v') :: setOp rest k v

/-- Method `Map.prototype.delete` (just the removal; the Boolean result is
recovered from `hasOp`): remove the binding of the key if present. -/
def delOp : JsMap K V → K → JsMap K V
  | [], _ => []
  | (k', v') :: rest, k => if k' = k then rest else (k', v') :: delOp rest k

/-- The keys of the map, in insertion order. -/
def keys (m : JsMap K V) : List K :=
  m.map Prod.fst

end JsMap

/-- The `RandomAccessMap` class: the inherited `Map` storage (`base`),
the dense key array and the key-to-index map. -/
structure RandomAccessMap (K V : Type) where
  base : JsMap K V
  keysArray : List K
  keyIndexMap : JsMap K Nat

namespace RandomAccessMap

/-- Constructor call `new RandomAccessMap()` with no entries: all three structures empty. -/
def empty : RandomAccessMap K V :=
  ⟨[], [], []⟩

/-- Method `set(key, value)` as in the source: compute `isNewKey` from
`super.has`, call `super.set`, and if the key is new push it onto
`keysArray` and record `keysArray.length - 1` (the pre-push length) in
`keyIndexMap`. -/
def set (m : RandomAccessMap K V) (key : K) (value : V) : RandomAccessMap K V :=
  let isNewKey := !(m.base.hasOp key)
  let base' := m.base.setOp key value
  if isNewKey then
    ⟨base', m.keysArray ++ [key], m.keyIndexMap.setOp key m.keysArray.length⟩
  else
    ⟨base', m.keysArray, m.keyIndexMap⟩

/-- Method `delete(key)` as in the source: return `false` if absent; otherwise
remove from the parent map, look up the key's index, and if it is not
the last slot move the last key into that slot and update its recorded
index; then pop the array and drop the key from the index map.

The non-null assertion `this.keyIndexMap.get(key)!` is modelled by
`Option.getD 0`, and the array read `this.keysArray[lastIndex]` by
`List.getD` (both are always in range in reachable states). -/
def delete (m : RandomAccessMap K V) (key : K) : Bool × RandomAccessMap K V :=
  if !(m.base.hasOp key) then (false, m)
  else
    let base' := m.base.delOp key
    let index := (m.keyIndexMap.getOp key).getD 0
    let lastIndex := m.keysArray.length - 1
    let moved :=
      if index ≠ lastIndex then
        let lastKey := m.keysArray.getD lastIndex key
        (m.keysArray.set index lastKey, m.keyIndexMap.setOp lastKey index)
      else
        (m.keysArray, m.keyIndexMap)
    (true, ⟨base', moved.1.dropLast, moved.2.delOp key⟩)

/-- Method `clear()`: empty all three structures. -/
def clear (_ : RandomAccessMap K V) : RandomAccessMap K V :=
  empty

/-- Inherited `Map.prototype.get`. -/
def get (m : RandomAccessMap K V) (k : K) : Option V :=
  m.base.getOp k

/-- Inherited `Map.prototype.has`. -/
def has (m : RandomAccessMap K V) (k : K) : Bool :=
  m.base.hasOp k

/-- Inherited `Map.prototype.size` (number of keys held). -/
def size (m : RandomAccessMap K V) : Nat :=
  m.base.length

/-- Method `randomEntry()` with the drawn index `i` made explicit: return
`undefined` (`none`) on an empty array, otherwise read the key at `i`
and pair it with its value from the parent map.  The two `none`
fall-through branches correspond to the out-of-range array read and to
the non-null assertion `super.get(randomKey)!`; neither is reachable
when `i < size` and the invariants hold. -/
def randomEntry (m : RandomAccessMap K V) (i : Nat) : Option (K × V) :=
  if m.keysArray.length = 0 then none
  else
    match m.keysArray[i]? with
    | none => none
    | some randomKey =>
        match m.base.getOp randomKey with
        | none => none
        | some v => some (randomKey, v)

/-- Method `randomEntry()` written with explicit state passing: every branch of
the method body only reads the three structures and returns the
container unchanged (the source method contains no field assignment). -/
def randomEntryS (m : RandomAccessMap K V) (i : Nat) :
    Option (K × V) × RandomAccessMap K V :=
  if m.keysArray.length = 0 then (none, m)
  else
    match m.keysArray[i]? with
    | none => (none, m)
    | some randomKey =>
        match m.base.getOp randomKey with
        | none => (none, m)
        | some v => (some (randomKey, v), m)

/-- Method `get` with explicit state passing (a pure read in the source). -/
def getS (m : RandomAccessMap K V) (k : K) : Option V × RandomAccessMap K V :=
  (m.base.getOp k, m)

/-- Method `has` with explicit state passing (a pure read in the source). -/
def hasS (m : RandomAccessMap K V) (k : K) : Bool × RandomAccessMap K V :=
  (m.base.hasOp k, m)

/-- Method `size` with explicit state passing (a pure read in the source). -/
def sizeS (m : RandomAccessMap K V) : Nat × RandomAccessMap K V :=
  (m.base.length, m)

/-- The constructor loop: `for (const [key, value] of entries)
this.set(key, value)`. -/
def setAll (m : RandomAccessMap K V) : List (K × V) → RandomAccessMap K V
  | [] => m
  | (k, v) :: rest => setAll (m.set k v) rest

/-- Constructor call `new RandomAccessMap(entries?)`: start from the empty container and
run the constructor loop when an entries batch is supplied. -/
def ofEntries (entries : Option (List (K × V))) : RandomAccessMap K V :=
  match entries with
  | none => empty
  | some l => setAll empty l

end RandomAccessMap

/-- One public mutating call on the container. -/
inductive Op (K V : Type) where
  | set (k : K) (v : V)
  | del (k : K)
  | clear

/-- Apply one call to the container. -/
def applyOp (m : RandomAccessMap K V) : Op K V → RandomAccessMap K V
  | .set k v => m.set k v
  | .del k => (m.delete k).2
  | .clear => m.clear

/-- Apply a sequence of calls from left to right. -/
def applyOps (m : RandomAccessMap K V) (ops : List (Op K V)) : RandomAccessMap K V :=
  ops.foldl applyOp m

/-- Calls that neither delete the key `k` nor set `k` to a value other
than `v`.  A `clear` call deletes every key — `k` included — so it is
not key-preserving. -/
def preservesKey (k : K) (v : V) : Op K V → Prop
  | .set k' v' => k' ≠ k ∨ v' = v
  | .del k' => k' ≠ k
  | .clear => False

/-- The number of distinct keys ever passed to `set` in a call
sequence (the quantity named by property P1 of the spec). -/
def distinctKeysEverSet (ops : List (Op K V)) : Nat :=
  ((ops.filterMap fun op =>
      match op with
      | .set k _ => some k
      | _ => none)).dedup.length

/-- The number of `delete` calls that return `true` when the sequence
is run from the container `m`. -/
def succDeletesFrom (m : RandomAccessMap K V) : List (Op K V) → Nat
  | [] => 0
  | op :: rest =>
      (match op with
       | .del k => if m.has k then 1 else 0
       | _ => 0) + succDeletesFrom (applyOp m op) rest

/-- One step of the corrected size accounting: carries the running
container together with the number of `set` calls that inserted a new
key and the number of successful `delete` calls, both counted since the
most recent `clear`. -/
def stepCounts (s : RandomAccessMap K V × Nat × Nat) (op : Op K V) :
    RandomAccessMap K V × Nat × Nat :=
  match s, op with
  | (m, cs, cd), .set k v => (m.set k v, cs + (if m.has k then 0 else 1), cd)
  | (m, cs, cd), .del k => ((m.delete k).2, cs, cd + (if m.has k then 1 else 0))
  | _, .clear => (RandomAccessMap.empty, 0, 0)

/-- Batch construction as the spec words it: start from an empty
container and apply `set` to each pair of the batch in order. -/
def specBatchInit (l : List (K × V)) : RandomAccessMap K V :=
  l.foldl (fun m p => m.set p.1 p.2) RandomAccessMap.empty

/-- A concrete call sequence exercising the P1 size formula:
re-inserting a key that was deleted earlier. -/
def c8ops : List (Op Nat Nat) :=
  [Op.set 0 0, Op.del 0, Op.set 0 0]

/-- A small concrete container used in witness statements: key 0
mapped to 10. -/
def sample1 : RandomAccessMap Nat Nat :=
  RandomAccessMap.empty.set 0 10

/-- A small concrete container used in witness statements: keys 0 and 1
mapped to 10 and 11. -/
def sample2 : RandomAccessMap Nat Nat :=
  sample1.set 1 11

/-- States reachable from a fresh container by `set`, `delete` and
`clear` calls. -/
inductive Reachable : RandomAccessMap K V → Prop where
  | empty : Reachable RandomAccessMap.empty
  | set {m : RandomAccessMap K V} (k : K) (v : V) :
      Reachable m → Reachable (m.set k v)
  | del {m : RandomAccessMap K V} (k : K) :
      Reachable m → Reachable (m.delete k).2
  | clear {m : RandomAccessMap K V} :
      Reachable m → Reachable m.clear

/-- The inductive coherence invariant of the container: the sizes of the
three structures agree (I1), the recorded index of every present key
points at that key in the dense array (I2), the dense array is exactly
the set of present keys without duplicates (I3), keys are unique in the
parent map and in the index map (I4 together with `Map` semantics), and
the index map's domain is exactly the dense array's contents. -/
structure Inv (m : RandomAccessMap K V) : Prop where
  len_base : m.keysArray.length = m.base.length
  len_index : m.keysArray.length = m.keyIndexMap.length
  nodup_arr : m.keysArray.Nodup
  nodup_base : m.base.keys.Nodup
  nodup_index : m.keyIndexMap.keys.Nodup
  mem_arr : ∀ k : K, k ∈ m.keysArray ↔ m.base.hasOp k = true
  index_correct : ∀ (k : K) (i : Nat),
    m.keyIndexMap.getOp k = some i → m.keysArray[i]? = some k
  index_dom : ∀ k : K, (m.keyIndexMap.getOp k).isSome = true ↔ k ∈ m.keysArray

/-! ### Lemmas about the `JsMap` operations -/

namespace JsMap

theorem getOp_nil (k : K) : getOp ([] : JsMap K V) k = none := rfl

theorem getOp_cons_self (rest : JsMap K V) (k : K) (v' : V) :
    getOp ((k, v') :: rest) k = some v' := by
  simp [getOp]

theorem getOp_cons_ne (rest : JsMap K V) {k' k : K} (v' : V) (h : k' ≠ k) :
    getOp ((k', v') :: rest) k = getOp rest k := by
  simp [getOp, h]

theorem getOp_setOp_self (m : JsMap K V) (k : K) (v : V) :
    getOp (setOp m k v) k = some v := by
  induction m with
  | nil => simp [setOp, getOp]
  | cons p rest ih =>
    obtain ⟨k', v'⟩ := p
    by_cases h : k' = k
    · subst h
      simp [setOp, getOp_cons_self]
    · simp [setOp, h, getOp_cons_ne _ _ h, ih]

theorem getOp_setOp_ne (m : JsMap K V) {k k' : K} (v : V) (h : k' ≠ k) :
    getOp (setOp m k v) k' = getOp m k' := by
  induction m with
  | nil =>
    simp [setOp, getOp_nil, getOp_cons_ne _ _ (Ne.symm h)]
  | cons p rest ih =>
    obtain ⟨k'', v''⟩ := p
    by_cases hk : k'' = k
    · subst hk
      simp [setOp, getOp_cons_ne _ _ (Ne.symm h)]
    · simp [setOp, hk]
      by_cases hk' : k'' = k'
      · subst hk'
        simp [getOp_cons_self]
      · simp [getOp_cons_ne _ _ hk', ih]

theorem hasOp_setOp_self (m : JsMap K V) (k : K) (v : V) :
    hasOp (setOp m k v) k = true := by
  simp [hasOp, getOp_setOp_self]

theorem hasOp_setOp (m : JsMap K V) (k k' : K) (v : V) :
    hasOp (setOp m k v) k' = true ↔ (k' = k ∨ hasOp m k' = true) := by
  by_cases h : k' = k
  · subst h
    simp [hasOp_setOp_self]
  · simp [hasOp, getOp_setOp_ne m v h, h]

theorem length_setOp_of_has (m : JsMap K V) {k : K} (v : V)
    (h : hasOp m k = true) : (setOp m k v).length = m.length := by
  induction m with
  | nil => simp [hasOp, getOp] at h
  | cons p rest ih =>
    obtain ⟨k', v'⟩ := p
    by_cases hk : k' = k
    · simp [setOp, hk]
    · rw [hasOp, getOp_cons_ne _ _ hk] at h
      simp [setOp, hk, ih h]

theorem length_setOp_of_not_has (m : JsMap K V) {k : K} (v : V)
    (h : hasOp m k = false) : (setOp m k v).length = m.length + 1 := by
  induction m with
  | nil => simp [setOp]
  | cons p rest ih =>
    obtain ⟨k', v'⟩ := p
    by_cases hk : k' = k
    · subst hk
      rw [hasOp, getOp_cons_self] at h
      simp at h
    · rw [hasOp, getOp_cons_ne _ _ hk] at h
      simp [setOp, hk, ih h]

theorem keys_setOp_of_has (m : JsMap K V) {k : K} (v : V)
    (h : hasOp m k = true) : keys (setOp m k v) = keys m := by
  induction m with
  | nil => simp [hasOp, getOp] at h
  | cons p rest ih =>
    obtain ⟨k', v'⟩ := p
    by_cases hk : k' = k
    · simp [setOp, keys, hk]
    · rw [hasOp, getOp_cons_ne _ _ hk] at h
      simp [setOp, keys, hk] at ih ⊢
      exact ih h

theorem keys_setOp_of_not_has (m : JsMap K V) {k : K} (v : V)
    (h : hasOp m k = false) : keys (setOp m k v) = keys m ++ [k] := by
  induction m with
  | nil => simp [setOp, keys]
  | cons p rest ih =>
    obtain ⟨k', v'⟩ := p
    by_cases hk : k' = k
    · subst hk
      rw [hasOp, getOp_cons_self] at h
      simp at h
    · rw [hasOp, getOp_cons_ne _ _ hk] at h
      simp [setOp, keys, hk] at ih ⊢
      exact ih h

theorem hasOp_iff_mem_keys (m : JsMap K V) (k : K) :
    hasOp m k = true ↔ k ∈ keys m := by
  induction m with
  | nil => simp [hasOp, getOp, keys]
  | cons p rest ih =>
    obtain ⟨k', v'⟩ := p
    by_cases hk : k' = k
    · subst hk
      simp [hasOp, getOp_cons_self, keys]
    · rw [hasOp, getOp_cons_ne _ _ hk]
      have hkeys : keys ((k', v') :: rest) = k' :: keys rest := rfl
      rw [hasOp] at ih
      rw [hkeys, List.mem_cons, ih]
      constructor
      · exact Or.inr
      · rintro (h1 | h2)
        · exact absurd h1.symm hk
        · exact h2

theorem delOp_of_not_has (m : JsMap K V) {k : K}
    (h : hasOp m k = false) : delOp m k = m := by
  induction m with
  | nil => simp [delOp]
  | cons p rest ih =>
    obtain ⟨k', v'⟩ := p
    by_cases hk : k' = k
    · subst hk
      rw [hasOp, getOp_cons_self] at h
      simp at h
    · rw [hasOp, getOp_cons_ne _ _ hk] at h
      simp [delOp, hk, ih h]

theorem delOp_sublist (m : JsMap K V) (k : K) : List.Sublist (delOp m k) m := by
  induction m with
  | nil => simp [delOp]
  | cons p rest ih =>
    obtain ⟨k', v'⟩ := p
    by_cases hk : k' = k
    · subst hk
      simp only [delOp, if_pos rfl]
      exact List.sublist_cons_self (k', v') rest
    · simpa [delOp, hk] using ih.cons₂ (k', v')

theorem keys_delOp_sublist (m : JsMap K V) (k : K) :
    List.Sublist (keys (delOp m k)) (keys m) :=
  List.Sublist.map Prod.fst (delOp_sublist m k)

theorem getOp_delOp_ne (m : JsMap K V) {k k' : K} (h : k' ≠ k) :
    getOp (delOp m k) k' = getOp m k' := by
  induction m with
  | nil => simp [delOp]
  | cons p rest ih =>
    obtain ⟨k'', v''⟩ := p
    by_cases hk : k'' = k
    · subst hk
      rw [delOp, if_pos rfl, getOp_cons_ne _ _ (Ne.symm h)]
    · rw [delOp, if_neg hk]
      by_cases hk' : k'' = k'
      · subst hk'
        rw [getOp_cons_self, getOp_cons_self]
      · rw [getOp_cons_ne _ _ hk', getOp_cons_ne _ _ hk', ih]

theorem getOp_delOp_self (m : JsMap K V) (k : K)
    (h : (keys m).Nodup) : getOp (delOp m k) k = none := by
  induction m with
  | nil => simp [delOp, getOp]
  | cons p rest ih =>
    obtain ⟨k', v'⟩ := p
    simp only [keys, List.map_cons, List.nodup_cons] at h
    by_cases hk : k' = k
    · subst hk
      rw [delOp, if_pos rfl]
      rcases hh : getOp rest k' with _ | w
      · rfl
      · exfalso
        have hmem : k' ∈ keys rest := by
          refine (hasOp_iff_mem_keys rest k').mp ?_
          simp [hasOp, hh]
        exact h.1 (by simpa [keys] using hmem)
    · rw [delOp, if_neg hk, getOp_cons_ne _ _ hk]
      exact ih h.2

theorem length_delOp_of_has (m : JsMap K V) {k : K}
    (h : hasOp m k = true) : (delOp m k).length + 1 = m.length := by
  induction m with
  | nil => simp [hasOp, getOp] at h
  | cons p rest ih =>
    obtain ⟨k', v'⟩ := p
    by_cases hk : k' = k
    · simp [delOp, hk]
    · rw [hasOp, getOp_cons_ne _ _ hk] at h
      rw [delOp, if_neg hk]
      have : (delOp rest k).length + 1 = rest.length := ih h
      simp only [List.length_cons]
      omega

theorem hasOp_delOp (m : JsMap K V) (k k' : K) (h : (keys m).Nodup) :
    hasOp (delOp m k) k' = true ↔ (hasOp m k' = true ∧ k' ≠ k) := by
  by_cases hk : k' = k
  · subst hk
    simp [hasOp, getOp_delOp_self m k' h]
  · simp [hasOp, getOp_delOp_ne m hk, hk]

end JsMap

/-! ### Generic list helpers -/

theorem getElem?_inj_of_nodup {α : Type} {l : List α} (h : l.Nodup)
    {i j : Nat} {x : α} (hi : l[i]? = some x) (hj : l[j]? = some x) : i = j := by
  have hlen : i < l.length := (List.getElem?_eq_some.mp hi).1
  exact List.getElem?_inj hlen h (hi.trans hj.symm)

theorem nodup_of_getElem?_inj {α : Type} (l : List α)
    (h : ∀ (i j : Nat) (x : α), l[i]? = some x → l[j]? = some x → i = j) :
    l.Nodup := by
  induction l with
  | nil => simp
  | cons a rest ih =>
    rw [List.nodup_cons]
    constructor
    · intro hmem
      obtain ⟨j, hj⟩ := List.mem_iff_getElem?.mp hmem
      have h0 : (a :: rest)[0]? = some a := by simp
      have hj1 : (a :: rest)[j + 1]? = some a := by simpa using hj
      have := h 0 (j + 1) a h0 hj1
      omega
    · refine ih ?_
      intro i j x hi hj
      have hi1 : (a :: rest)[i + 1]? = some x := by simpa using hi
      have hj1 : (a :: rest)[j + 1]? = some x := by simpa using hj
      have := h (i + 1) (j + 1) x hi1 hj1
      omega

theorem getElem?_dropLast_of_lt {α : Type} (l : List α) {i : Nat}
    (h : i < l.length - 1) : l.dropLast[i]? = l[i]? := by
  rw [List.dropLast_eq_take]
  exact List.getElem?_take_of_lt h

/-! ### Unfolding equations for `set` and `delete` -/

namespace RandomAccessMap

theorem set_of_not_has {m : RandomAccessMap K V} {k : K} (v : V)
    (h : m.base.hasOp k = false) :
    m.set k v = ⟨m.base.setOp k v, m.keysArray ++ [k],
      m.keyIndexMap.setOp k m.keysArray.length⟩ := by
  simp [set, h]

theorem set_of_has {m : RandomAccessMap K V} {k : K} (v : V)
    (h : m.base.hasOp k = true) :
    m.set k v = ⟨m.base.setOp k v, m.keysArray, m.keyIndexMap⟩ := by
  simp [set, h]

theorem delete_of_not_has {m : RandomAccessMap K V} {k : K}
    (h : m.base.hasOp k = false) : m.delete k = (false, m) := by
  simp [delete, h]

theorem delete_of_has_eq_last {m : RandomAccessMap K V} {k : K} {p : Nat}
    (hh : m.base.hasOp k = true) (hp : m.keyIndexMap.getOp k = some p)
    (hlast : p = m.keysArray.length - 1) :
    m.delete k = (true, ⟨m.base.delOp k, m.keysArray.dropLast,
      m.keyIndexMap.delOp k⟩) := by
  simp [delete, hh, hp, hlast]

theorem delete_of_has_ne_last {m : RandomAccessMap K V} {k : K} {p : Nat}
    (hh : m.base.hasOp k = true) (hp : m.keyIndexMap.getOp k = some p)
    (hlast : p ≠ m.keysArray.length - 1) :
    m.delete k = (true, ⟨m.base.delOp k,
      ((m.keysArray.set p (m.keysArray.getD (m.keysArray.length - 1) k)).dropLast),
      ((m.keyIndexMap.setOp (m.keysArray.getD (m.keysArray.length - 1) k) p).delOp
        k)⟩) := by
  simp [delete, hh, hp, hlast]

end RandomAccessMap

/-! ### Preservation of the invariant -/

theorem inv_empty : Inv (RandomAccessMap.empty : RandomAccessMap K V) := by
  refine ⟨rfl, rfl, ?_, ?_, ?_, ?_, ?_, ?_⟩
  · simp [RandomAccessMap.empty]
  · simp [RandomAccessMap.empty, JsMap.keys]
  · simp [RandomAccessMap.empty, JsMap.keys]
  · intro k
    simp [RandomAccessMap.empty, JsMap.hasOp, JsMap.getOp]
  · intro k i h
    simp [RandomAccessMap.empty, JsMap.getOp] at h
  · intro k
    simp [RandomAccessMap.empty, JsMap.getOp]

theorem inv_clear (m : RandomAccessMap K V) : Inv m.clear :=
  inv_empty

theorem inv_set {m : RandomAccessMap K V} (h : Inv m) (k : K) (v : V) :
    Inv (m.set k v) := by
  by_cases hk : m.base.hasOp k = true
  · rw [RandomAccessMap.set_of_has v hk]
    refine ⟨?_, h.len_index, h.nodup_arr, ?_, h.nodup_index, ?_,
      h.index_correct, h.index_dom⟩
    · rw [JsMap.length_setOp_of_has _ v hk]
      exact h.len_base
    · rw [JsMap.keys_setOp_of_has _ v hk]
      exact h.nodup_base
    · intro k'
      constructor
      · intro hx
        exact (JsMap.hasOp_setOp _ _ _ _).mpr (Or.inr ((h.mem_arr k').mp hx))
      · intro hx
        rcases (JsMap.hasOp_setOp _ _ _ _).mp hx with rfl | hx'
        · exact (h.mem_arr k').mpr hk
        · exact (h.mem_arr k').mpr hx'
  · have hk' : m.base.hasOp k = false := by
      simpa using hk
    rw [RandomAccessMap.set_of_not_has v hk']
    have karr : k ∉ m.keysArray := by
      intro hmem
      rw [(h.mem_arr k).mp hmem] at hk'
      cases hk'
    have kidx : m.keyIndexMap.getOp k = none := by
      rcases ho : m.keyIndexMap.getOp k with _ | i
      · rfl
      · exfalso
        refine karr ((h.index_dom k).mp ?_)
        simp [ho]
    have kbase : k ∉ m.base.keys := by
      intro hmem
      rw [(JsMap.hasOp_iff_mem_keys m.base k).mpr hmem] at hk'
      cases hk'
    have kidxkeys : k ∉ m.keyIndexMap.keys := by
      intro hmem
      have := (JsMap.hasOp_iff_mem_keys m.keyIndexMap k).mpr hmem
      rw [JsMap.hasOp, kidx] at this
      cases this
    have hidxfalse : m.keyIndexMap.hasOp k = false := by
      simp [JsMap.hasOp, kidx]
    refine ⟨?_, ?_, ?_, ?_, ?_, ?_, ?_, ?_⟩
    · rw [JsMap.length_setOp_of_not_has _ v hk']
      simp [h.len_base]
    · rw [JsMap.length_setOp_of_not_has _ m.keysArray.length hidxfalse]
      simp [h.len_index]
    · simp [List.nodup_append, h.nodup_arr, karr]
    · rw [JsMap.keys_setOp_of_not_has _ v hk']
      simp [List.nodup_append, h.nodup_base, kbase]
    · rw [JsMap.keys_setOp_of_not_has _ m.keysArray.length hidxfalse]
      simp [List.nodup_append, h.nodup_index, kidxkeys]
    · intro k'
      rw [List.mem_append]
      constructor
      · rintro (hx | hx)
        · exact (JsMap.hasOp_setOp _ _ _ _).mpr (Or.inr ((h.mem_arr k').mp hx))
        · simp at hx
          subst hx
          exact (JsMap.hasOp_setOp _ _ _ _).mpr (Or.inl rfl)
      · intro hx
        rcases (JsMap.hasOp_setOp _ _ _ _).mp hx with rfl | hx'
        · simp
        · exact Or.inl ((h.mem_arr k').mpr hx')
    · intro k' i hi
      by_cases hkk : k' = k
      · subst hkk
        rw [JsMap.getOp_setOp_self] at hi
        obtain rfl : m.keysArray.length = i := by
          simpa using hi
        exact List.getElem?_concat_length _ _
      · rw [JsMap.getOp_setOp_ne _ _ hkk] at hi
        have hlt : i < m.keysArray.length :=
          (List.getElem?_eq_some.mp (h.index_correct k' i hi)).1
        rw [List.getElem?_append_left hlt]
        exact h.index_correct k' i hi
    · intro k'
      by_cases hkk : k' = k
      · subst hkk
        simp [JsMap.getOp_setOp_self]
      · rw [JsMap.getOp_setOp_ne _ _ hkk, List.mem_append]
        rw [h.index_dom k']
        simp [hkk]

/-! ### Swap-with-last: characterisation of `(l.set p lk).dropLast` -/

theorem swapRemove_getElem? {α : Type} (l : List α) (p : Nat) (lk : α)
    (hp : p < l.length) (j : Nat) (hj : j < l.length - 1) :
    ((l.set p lk).dropLast)[j]? = if j = p then some lk else l[j]? := by
  have h1 : ((l.set p lk).dropLast)[j]? = (l.set p lk)[j]? := by
    apply getElem?_dropLast_of_lt
    rw [List.length_set]
    exact hj
  rw [h1]
  by_cases hjp : j = p
  · subst hjp
    rw [if_pos rfl, List.getElem?_set_eq_of_lt lk hp]
  · rw [if_neg hjp, List.getElem?_set_ne (fun hh => hjp hh.symm)]

theorem swapRemove_mem {α : Type} (l : List α) {p : Nat} {k lk : α}
    (hnd : l.Nodup) (hpk : l[p]? = some k) (hlk : l[l.length - 1]? = some lk)
    (hne : p ≠ l.length - 1) (x : α) :
    x ∈ (l.set p lk).dropLast ↔ (x ∈ l ∧ x ≠ k) := by
  have hplt : p < l.length := (List.getElem?_eq_some.mp hpk).1
  have hplt1 : p < l.length - 1 := by omega
  have hkne : k ≠ lk := by
    intro hkl
    subst hkl
    exact hne (getElem?_inj_of_nodup hnd hpk hlk)
  constructor
  · intro hx
    obtain ⟨j, hj⟩ := List.mem_iff_getElem?.mp hx
    have hjlt : j < (l.set p lk).dropLast.length := (List.getElem?_eq_some.mp hj).1
    have hjlt' : j < l.length - 1 := by
      rw [List.length_dropLast, List.length_set] at hjlt
      exact hjlt
    rw [swapRemove_getElem? l p lk hplt j hjlt'] at hj
    by_cases hjp : j = p
    · rw [if_pos hjp] at hj
      obtain rfl : lk = x := Option.some.inj hj
      exact ⟨List.getElem?_mem hlk, fun hh => hkne hh.symm⟩
    · rw [if_neg hjp] at hj
      refine ⟨List.getElem?_mem hj, ?_⟩
      intro hxk
      subst hxk
      exact hjp (getElem?_inj_of_nodup hnd hj hpk)
  · rintro ⟨hx, hxk⟩
    obtain ⟨j, hj⟩ := List.mem_iff_getElem?.mp hx
    by_cases hjl : j = l.length - 1
    · subst hjl
      obtain rfl : lk = x := by
        rw [hj] at hlk
        exact (Option.some.inj hlk).symm
      refine List.mem_iff_getElem?.mpr ⟨p, ?_⟩
      rw [swapRemove_getElem? l p lk hplt p hplt1, if_pos rfl]
    · have hjlt : j < l.length := (List.getElem?_eq_some.mp hj).1
      have hjlt' : j < l.length - 1 := by omega
      have hjp : j ≠ p := by
        intro hh
        subst hh
        rw [hpk] at hj
        exact hxk (Option.some.inj hj).symm
      refine List.mem_iff_getElem?.mpr ⟨j, ?_⟩
      rw [swapRemove_getElem? l p lk hplt j hjlt', if_neg hjp]
      exact hj

theorem swapRemove_nodup {α : Type} (l : List α) {p : Nat} {k lk : α}
    (hnd : l.Nodup) (hpk : l[p]? = some k) (hlk : l[l.length - 1]? = some lk)
    (hne : p ≠ l.length - 1) : ((l.set p lk).dropLast).Nodup := by
  have hplt : p < l.length := (List.getElem?_eq_some.mp hpk).1
  apply nodup_of_getElem?_inj
  intro i j x hi hj
  have hilt : i < l.length - 1 := by
    have := (List.getElem?_eq_some.mp hi).1
    rw [List.length_dropLast, List.length_set] at this
    exact this
  have hjlt : j < l.length - 1 := by
    have := (List.getElem?_eq_some.mp hj).1
    rw [List.length_dropLast, List.length_set] at this
    exact this
  rw [swapRemove_getElem? l p lk hplt i hilt] at hi
  rw [swapRemove_getElem? l p lk hplt j hjlt] at hj
  by_cases hip : i = p <;> by_cases hjp : j = p
  · omega
  · rw [if_pos hip] at hi
    rw [if_neg hjp] at hj
    obtain rfl : lk = x := Option.some.inj hi
    have : j = l.length - 1 := getElem?_inj_of_nodup hnd hj hlk
    omega
  · rw [if_neg hip] at hi
    rw [if_pos hjp] at hj
    obtain rfl : lk = x := Option.some.inj hj
    have : i = l.length - 1 := getElem?_inj_of_nodup hnd hi hlk
    omega
  · rw [if_neg hip] at hi
    rw [if_neg hjp] at hj
    exact getElem?_inj_of_nodup hnd hi hj

theorem mem_dropLast_iff {α : Type} {l : List α} {k : α} (hnd : l.Nodup)
    (hlast : l[l.length - 1]? = some k) (x : α) :
    x ∈ l.dropLast ↔ (x ∈ l ∧ x ≠ k) := by
  have hne : l ≠ [] := by
    intro hE
    subst hE
    simp at hlast
  have hglast : l.getLast hne = k := by
    rw [List.getLast_eq_getElem l hne]
    have hlt : l.length - 1 < l.length := (List.getElem?_eq_some.mp hlast).1
    have := List.getElem?_eq_getElem hlt
    rw [this] at hlast
    exact Option.some.inj hlast
  have hdecomp : l.dropLast ++ [k] = l := by
    have h1 := List.dropLast_append_getLast hne
    rw [hglast] at h1
    exact h1
  have hnotin : k ∉ l.dropLast := by
    intro hmem
    have : (l.dropLast ++ [k]).Nodup := by rw [hdecomp]; exact hnd
    rw [List.nodup_append] at this
    exact this.2.2 hmem (List.mem_singleton.mpr rfl)
  constructor
  · intro hx
    refine ⟨?_, ?_⟩
    · rw [← hdecomp]
      exact List.mem_append_left _ hx
    · intro hxk
      subst hxk
      exact hnotin hx
  · rintro ⟨hx, hxk⟩
    rw [← hdecomp] at hx
    rcases List.mem_append.mp hx with h1 | h1
    · exact h1
    · simp at h1
      exact absurd h1 hxk

theorem inv_delete {m : RandomAccessMap K V} (h : Inv m) (k : K) :
    Inv (m.delete k).2 := by
  by_cases hk : m.base.hasOp k = true
  case neg =>
    have hk' : m.base.hasOp k = false := by simpa using hk
    rw [RandomAccessMap.delete_of_not_has hk']
    exact h
  case pos =>
  have hkarr : k ∈ m.keysArray := (h.mem_arr k).mpr hk
  have hidx : (m.keyIndexMap.getOp k).isSome = true := (h.index_dom k).mpr hkarr
  obtain ⟨p, hp⟩ : ∃ p, m.keyIndexMap.getOp k = some p := by
    rcases ho : m.keyIndexMap.getOp k with _ | p
    · rw [ho] at hidx
      cases hidx
    · exact ⟨p, rfl⟩
  have hpk : m.keysArray[p]? = some k := h.index_correct k p hp
  have hplt : p < m.keysArray.length := (List.getElem?_eq_some.mp hpk).1
  have hidxhas : m.keyIndexMap.hasOp k = true := by
    simp [JsMap.hasOp, hp]
  by_cases hpl : p = m.keysArray.length - 1
  · -- the deleted key sits in the last slot: no move happens
    rw [RandomAccessMap.delete_of_has_eq_last hk hp hpl]
    dsimp only
    have hlastk : m.keysArray[m.keysArray.length - 1]? = some k := by
      rw [← hpl]
      exact hpk
    have hmemlast := mem_dropLast_iff h.nodup_arr hlastk
    refine ⟨?_, ?_, ?_, ?_, ?_, ?_, ?_, ?_⟩
    · dsimp only
      have h1 := JsMap.length_delOp_of_has m.base hk
      have h2 := h.len_base
      rw [List.length_dropLast]
      omega
    · dsimp only
      have h1 := JsMap.length_delOp_of_has m.keyIndexMap hidxhas
      have h2 := h.len_index
      rw [List.length_dropLast]
      omega
    · exact h.nodup_arr.sublist (List.dropLast_sublist _)
    · exact h.nodup_base.sublist (JsMap.keys_delOp_sublist _ _)
    · exact h.nodup_index.sublist (JsMap.keys_delOp_sublist _ _)
    · intro x
      rw [hmemlast x, JsMap.hasOp_delOp _ _ _ h.nodup_base, h.mem_arr x]
    · intro x i hi
      have hxk : x ≠ k := by
        intro hh
        subst hh
        rw [JsMap.getOp_delOp_self _ _ h.nodup_index] at hi
        cases hi
      rw [JsMap.getOp_delOp_ne _ hxk] at hi
      have harr := h.index_correct x i hi
      have hilt : i < m.keysArray.length := (List.getElem?_eq_some.mp harr).1
      have hine : i ≠ m.keysArray.length - 1 := by
        intro hh
        subst hh
        rw [harr] at hlastk
        exact hxk (Option.some.inj hlastk)
      rw [getElem?_dropLast_of_lt _ (by omega)]
      exact harr
    · intro x
      by_cases hxk : x = k
      · subst hxk
        rw [JsMap.getOp_delOp_self _ _ h.nodup_index]
        simp [hmemlast x]
      · rw [JsMap.getOp_delOp_ne _ hxk, h.index_dom x, hmemlast x]
        simp [hxk]
  · -- the deleted key is not last: the last key is moved into its slot
    rw [RandomAccessMap.delete_of_has_ne_last hk hp hpl]
    dsimp only
    have hlast_lt : m.keysArray.length - 1 < m.keysArray.length := by omega
    obtain ⟨lk, hlk⟩ : ∃ w, m.keysArray[m.keysArray.length - 1]? = some w :=
      ⟨_, List.getElem?_eq_getElem hlast_lt⟩
    have hgetD : m.keysArray.getD (m.keysArray.length - 1) k = lk := by
      rw [List.getD_eq_getElem?_getD, hlk]
      rfl
    rw [hgetD]
    have hlkarr : lk ∈ m.keysArray := List.getElem?_mem hlk
    have hlkne : lk ≠ k := by
      intro hh
      subst hh
      exact hpl (getElem?_inj_of_nodup h.nodup_arr hpk hlk)
    have hlkidx : m.keyIndexMap.hasOp lk = true := by
      have := (h.index_dom lk).mpr hlkarr
      simpa [JsMap.hasOp] using this
    have hkeysset : (m.keyIndexMap.setOp lk p).keys = m.keyIndexMap.keys :=
      JsMap.keys_setOp_of_has _ _ hlkidx
    have hndset : ((m.keyIndexMap.setOp lk p).keys).Nodup := by
      rw [hkeysset]
      exact h.nodup_index
    have hsethask : (m.keyIndexMap.setOp lk p).hasOp k = true := by
      have := JsMap.getOp_setOp_ne m.keyIndexMap (V := Nat) p
        (fun hh : k = lk => hlkne hh.symm)
      simp [JsMap.hasOp, this, hp]
    have hmemswap := swapRemove_mem m.keysArray h.nodup_arr hpk hlk hpl
    have hplt1 : p < m.keysArray.length - 1 := by omega
    refine ⟨?_, ?_, ?_, ?_, ?_, ?_, ?_, ?_⟩
    · dsimp only
      have h1 := JsMap.length_delOp_of_has m.base hk
      have h2 := h.len_base
      rw [List.length_dropLast, List.length_set]
      omega
    · dsimp only
      have h1 := JsMap.length_delOp_of_has _ hsethask
      have h2 := JsMap.length_setOp_of_has m.keyIndexMap p hlkidx
      have h3 := h.len_index
      rw [List.length_dropLast, List.length_set]
      omega
    · exact swapRemove_nodup m.keysArray h.nodup_arr hpk hlk hpl
    · exact h.nodup_base.sublist (JsMap.keys_delOp_sublist _ _)
    · exact hndset.sublist (JsMap.keys_delOp_sublist _ _)
    · intro x
      rw [hmemswap x, JsMap.hasOp_delOp _ _ _ h.nodup_base, h.mem_arr x]
    · intro x i hi
      have hxk : x ≠ k := by
        intro hh
        subst hh
        rw [JsMap.getOp_delOp_self _ _ hndset] at hi
        cases hi
      rw [JsMap.getOp_delOp_ne _ hxk] at hi
      by_cases hxlk : x = lk
      · subst hxlk
        rw [JsMap.getOp_setOp_self] at hi
        obtain rfl : p = i := Option.some.inj hi
        rw [swapRemove_getElem? m.keysArray p x hplt p hplt1, if_pos rfl]
      · rw [JsMap.getOp_setOp_ne _ _ hxlk] at hi
        have harr := h.index_correct x i hi
        have hilt : i < m.keysArray.length := (List.getElem?_eq_some.mp harr).1
        have hip : i ≠ p := by
          intro hh
          subst hh
          rw [harr] at hpk
          exact hxk (Option.some.inj hpk)
        have hine : i ≠ m.keysArray.length - 1 := by
          intro hh
          subst hh
          rw [harr] at hlk
          exact hxlk (Option.some.inj hlk)
        rw [swapRemove_getElem? m.keysArray p lk hplt i (by omega), if_neg hip]
        exact harr
    · intro x
      by_cases hxk : x = k
      · subst hxk
        rw [JsMap.getOp_delOp_self _ _ hndset]
        simp [hmemswap x]
      · rw [JsMap.getOp_delOp_ne _ hxk, hmemswap x]
        by_cases hxlk : x = lk
        · subst hxlk
          rw [JsMap.getOp_setOp_self]
          simp [hlkarr, hxk]
        · rw [JsMap.getOp_setOp_ne _ _ hxlk, h.index_dom x]
          simp [hxk]

theorem reachable_inv {m : RandomAccessMap K V} (h : Reachable m) : Inv m := by
  induction h with
  | empty => exact inv_empty
  | set k v _ ih => exact inv_set ih k v
  | del k _ ih => exact inv_delete ih k
  | clear _ ih => exact inv_clear _

/-! ### Basic facts about the public operations -/

theorem set_base_eq (m : RandomAccessMap K V) (k : K) (v : V) :
    (m.set k v).base = m.base.setOp k v := by
  by_cases h : m.base.hasOp k = true
  · rw [RandomAccessMap.set_of_has v h]
  · rw [RandomAccessMap.set_of_not_has v (by simpa using h)]

theorem get_set_self (m : RandomAccessMap K V) (k : K) (v : V) :
    (m.set k v).get k = some v := by
  rw [RandomAccessMap.get, set_base_eq, JsMap.getOp_setOp_self]

theorem get_set_ne (m : RandomAccessMap K V) {k k' : K} (v : V) (h : k' ≠ k) :
    (m.set k v).get k' = m.get k' := by
  rw [RandomAccessMap.get, set_base_eq, JsMap.getOp_setOp_ne _ _ h]
  rfl

theorem has_set_self (m : RandomAccessMap K V) (k : K) (v : V) :
    (m.set k v).has k = true := by
  rw [RandomAccessMap.has, set_base_eq]
  exact JsMap.hasOp_setOp_self _ _ _

theorem has_of_get_some {m : RandomAccessMap K V} {k : K} {v : V}
    (h : m.get k = some v) : m.has k = true := by
  rw [RandomAccessMap.has, JsMap.hasOp, RandomAccessMap.get] at *
  rw [h]
  rfl

theorem size_set_of_not_has {m : RandomAccessMap K V} {k : K} (v : V)
    (h : m.has k = false) : (m.set k v).size = m.size + 1 := by
  rw [RandomAccessMap.size, RandomAccessMap.size, set_base_eq]
  exact JsMap.length_setOp_of_not_has _ v h

theorem size_set_of_has {m : RandomAccessMap K V} {k : K} (v : V)
    (h : m.has k = true) : (m.set k v).size = m.size := by
  rw [RandomAccessMap.size, RandomAccessMap.size, set_base_eq]
  exact JsMap.length_setOp_of_has _ v h

theorem delete_base_of_has {m : RandomAccessMap K V} {k : K}
    (h : m.has k = true) : ((m.delete k).2).base = m.base.delOp k := by
  have h' : m.base.hasOp k = true := h
  simp [RandomAccessMap.delete, h']

theorem delete_fst_of_has {m : RandomAccessMap K V} {k : K}
    (h : m.has k = true) : (m.delete k).1 = true := by
  have h' : m.base.hasOp k = true := h
  simp [RandomAccessMap.delete, h']

theorem size_delete_of_has {m : RandomAccessMap K V} {k : K}
    (h : m.has k = true) : ((m.delete k).2).size + 1 = m.size := by
  have h' : m.base.hasOp k = true := h
  rw [RandomAccessMap.size, RandomAccessMap.size, delete_base_of_has h]
  exact JsMap.length_delOp_of_has _ h'

theorem get_delete_ne (m : RandomAccessMap K V) {k k' : K} (h : k' ≠ k) :
    ((m.delete k).2).get k' = m.get k' := by
  by_cases hk : m.base.hasOp k = true
  · rw [RandomAccessMap.get, delete_base_of_has hk, JsMap.getOp_delOp_ne _ h]
    rfl
  · rw [RandomAccessMap.delete_of_not_has (by simpa using hk)]

theorem applyOps_cons (m : RandomAccessMap K V) (op : Op K V)
    (ops : List (Op K V)) : applyOps m (op :: ops) = applyOps (applyOp m op) ops :=
  rfl

theorem get_preserved_of_ops (ops : List (Op K V)) :
    ∀ (m : RandomAccessMap K V) (k : K) (v : V),
      m.get k = some v → (∀ op ∈ ops, preservesKey k v op) →
      (applyOps m ops).get k = some v := by
  induction ops with
  | nil =>
    intro m k v h _
    exact h
  | cons op rest ih =>
    intro m k v h hall
    have hop := hall op (List.mem_cons_self op rest)
    have hrest : ∀ o ∈ rest, preservesKey k v o :=
      fun o ho => hall o (List.mem_cons_of_mem _ ho)
    rw [applyOps_cons]
    refine ih _ _ _ ?_ hrest
    cases op with
    | set k' v' =>
      show (m.set k' v').get k = some v
      by_cases hkk : k' = k
      · subst hkk
        rcases hop with hne | rfl
        · exact absurd rfl hne
        · exact get_set_self m k' v'
      · rw [get_set_ne _ _ (fun hh => hkk hh.symm)]
        exact h
    | del k' =>
      show ((m.delete k').2).get k = some v
      have hne : k' ≠ k := hop
      rw [get_delete_ne _ (fun hh => hne hh.symm)]
      exact h
    | clear =>
      exact absurd hop (fun hf => hf)

theorem stepCounts_spec (ops : List (Op K V)) :
    ∀ (m : RandomAccessMap K V) (cs cd : Nat), m.size + cd = cs →
      (ops.foldl stepCounts (m, cs, cd)).1 = applyOps m ops ∧
      (ops.foldl stepCounts (m, cs, cd)).1.size
          + (ops.foldl stepCounts (m, cs, cd)).2.2
        = (ops.foldl stepCounts (m, cs, cd)).2.1 := by
  induction ops with
  | nil =>
    intro m cs cd h
    exact ⟨rfl, h⟩
  | cons op rest ih =>
    intro m cs cd h
    rw [List.foldl_cons, applyOps_cons]
    cases op with
    | set k v =>
      by_cases hk : m.has k = true
      · have hstep : stepCounts (m, cs, cd) (Op.set k v) = (m.set k v, cs + 0, cd) := by
          simp [stepCounts, hk]
        rw [hstep]
        refine ih _ _ _ ?_
        rw [size_set_of_has v hk]
        omega
      · have hk' : m.has k = false := by simpa using hk
        have hstep : stepCounts (m, cs, cd) (Op.set k v) = (m.set k v, cs + 1, cd) := by
          simp [stepCounts, hk']
        rw [hstep]
        refine ih _ _ _ ?_
        rw [size_set_of_not_has v hk']
        omega
    | del k =>
      by_cases hk : m.has k = true
      · have hstep : stepCounts (m, cs, cd) (Op.del k) = ((m.delete k).2, cs, cd + 1) := by
          simp [stepCounts, hk]
        rw [hstep]
        refine ih _ _ _ ?_
        have := size_delete_of_has hk
        omega
      · have hk' : m.has k = false := by simpa using hk
        have hstep : stepCounts (m, cs, cd) (Op.del k) = ((m.delete k).2, cs, cd + 0) := by
          simp [stepCounts, hk']
        rw [hstep]
        refine ih _ _ _ ?_
        rw [RandomAccessMap.delete_of_not_has hk']
        dsimp only
        omega
    | clear =>
      have hstep : stepCounts (m, cs, cd) Op.clear = (RandomAccessMap.empty, 0, 0) := rfl
      rw [hstep]
      exact ih _ _ _ rfl

theorem setAll_eq_foldl (l : List (K × V)) :
    ∀ m : RandomAccessMap K V,
      m.setAll l = l.foldl (fun acc p => acc.set p.1 p.2) m := by
  induction l with
  | nil =>
    intro m
    rfl
  | cons p rest ih =>
    intro m
    obtain ⟨k, v⟩ := p
    exact ih (m.set k v)

theorem reachable_setAll (l : List (K × V)) :
    ∀ {m : RandomAccessMap K V}, Reachable m → Reachable (m.setAll l) := by
  induction l with
  | nil =>
    intro m h
    exact h
  | cons p rest ih =>
    intro m h
    obtain ⟨k, v⟩ := p
    exact ih (Reachable.set k v h)

theorem randomEntry_eq_some {m : RandomAccessMap K V} {i : Nat} {k : K}
    (hlen : m.keysArray.length ≠ 0) (hk : m.keysArray[i]? = some k) {v : V}
    (hv : m.base.getOp k = some v) : m.randomEntry i = some (k, v) := by
  rw [RandomAccessMap.randomEntry, if_neg hlen, hk]
  dsimp only
  rw [hv]

theorem randomEntry_some_inv {m : RandomAccessMap K V} {i : Nat} {k : K} {v : V}
    (h : m.randomEntry i = some (k, v)) :
    m.keysArray[i]? = some k ∧ m.base.getOp k = some v := by
  rw [RandomAccessMap.randomEntry] at h
  by_cases hlen : m.keysArray.length = 0
  · rw [if_pos hlen] at h
    cases h
  · rw [if_neg hlen] at h
    rcases hx : m.keysArray[i]? with _ | k'
    · rw [hx] at h
      dsimp only at h
      cases h
    · rw [hx] at h
      dsimp only at h
      rcases hy : m.base.getOp k' with _ | v'
      · rw [hy] at h
        cases h
      · rw [hy] at h
        obtain ⟨rfl, rfl⟩ := Prod.mk.inj (Option.some.inj h)
        exact ⟨rfl, hy⟩

/-! ### The claims -/

/-- C1: every state reachable from a fresh container by `set`, `delete`
and `clear` calls satisfies invariants I1-I4: the dense key array, the
key-to-index map and the primary mapping all have the same size (I1);
for every present key the recorded index points at that key in the
dense array (I2); the dense array holds exactly the present keys, with
no duplicates and no holes (I3); and keys are unique, with `set` on an
existing key leaving the dense array and the recorded positions
unchanged (I4). -/
theorem C1_reachable_invariants (m : RandomAccessMap K V) (h : Reachable m) :
    (m.keysArray.length = m.base.length ∧
      m.keysArray.length = m.keyIndexMap.length) ∧
    (∀ k : K, m.has k = true →
      ∃ i : Nat, m.keyIndexMap.getOp k = some i ∧ m.keysArray[i]? = some k) ∧
    (m.keysArray.Nodup ∧ ∀ k : K, k ∈ m.keysArray ↔ m.has k = true) ∧
    (m.base.keys.Nodup ∧
      ∀ (k : K) (v : V), m.has k = true →
        (m.set k v).keysArray = m.keysArray ∧
        (m.set k v).keyIndexMap = m.keyIndexMap) := by
  have hInv := reachable_inv h
  refine ⟨⟨hInv.len_base, hInv.len_index⟩, ?_, ⟨hInv.nodup_arr, ?_⟩,
    hInv.nodup_base, ?_⟩
  · intro k hk
    have hmem : k ∈ m.keysArray := (hInv.mem_arr k).mpr hk
    have hsome := (hInv.index_dom k).mpr hmem
    rcases ho : m.keyIndexMap.getOp k with _ | i
    · rw [ho] at hsome
      cases hsome
    · exact ⟨i, rfl, hInv.index_correct k i ho⟩
  · intro k
    exact hInv.mem_arr k
  · intro k v hk
    rw [RandomAccessMap.set_of_has v hk]
    exact ⟨rfl, rfl⟩

/-- Witness for C1: the invariants at the concrete reachable state
`sample1`. -/
theorem C1_witness :
    (sample1.keysArray.length = sample1.base.length ∧
      sample1.keysArray.length = sample1.keyIndexMap.length) ∧
    (∀ k : Nat, sample1.has k = true →
      ∃ i : Nat, sample1.keyIndexMap.getOp k = some i ∧
        sample1.keysArray[i]? = some k) ∧
    (sample1.keysArray.Nodup ∧
      ∀ k : Nat, k ∈ sample1.keysArray ↔ sample1.has k = true) ∧
    (sample1.base.keys.Nodup ∧
      ∀ (k : Nat) (v : Nat), sample1.has k = true →
        (sample1.set k v).keysArray = sample1.keysArray ∧
        (sample1.set k v).keyIndexMap = sample1.keyIndexMap) :=
  C1_reachable_invariants sample1 (Reachable.set 0 10 Reachable.empty)

/-- C2: deleting a present key `k` from a container satisfying the
invariant returns `true` and performs swap-with-last removal: with `p`
the recorded position of `k` and `last` the final dense-array position,
if `p ≠ last` the key at `last` is written into slot `p` and its
recorded position becomes `p`; the dense array loses its final slot;
`k` disappears from the primary mapping and from the index.  Afterwards
`has k` is false, `get k` is the absent marker, the size has dropped by
exactly one, and every other key keeps its previous value. -/
theorem C2_delete_present (m : RandomAccessMap K V) (hInv : Inv m) (k : K)
    (hk : m.has k = true) :
    (m.delete k).1 = true ∧
    (∀ p : Nat, m.keyIndexMap.getOp k = some p →
      ((m.delete k).2.keysArray =
        (if p ≠ m.keysArray.length - 1 then
            m.keysArray.set p (m.keysArray.getD (m.keysArray.length - 1) k)
          else m.keysArray).dropLast) ∧
      (p ≠ m.keysArray.length - 1 →
        (m.delete k).2.keyIndexMap.getOp
          (m.keysArray.getD (m.keysArray.length - 1) k) = some p)) ∧
    (m.delete k).2.has k = false ∧
    (m.delete k).2.get k = none ∧
    (m.delete k).2.keyIndexMap.getOp k = none ∧
    (m.delete k).2.size + 1 = m.size ∧
    (∀ k' : K, k' ≠ k → (m.delete k).2.get k' = m.get k') := by
  have hk' : m.base.hasOp k = true := hk
  have hkarr : k ∈ m.keysArray := (hInv.mem_arr k).mpr hk'
  have hidx : (m.keyIndexMap.getOp k).isSome = true := (hInv.index_dom k).mpr hkarr
  obtain ⟨p, hp⟩ : ∃ p, m.keyIndexMap.getOp k = some p := by
    rcases ho : m.keyIndexMap.getOp k with _ | p
    · rw [ho] at hidx
      cases hidx
    · exact ⟨p, rfl⟩
  have hpk : m.keysArray[p]? = some k := hInv.index_correct k p hp
  have hplt : p < m.keysArray.length := (List.getElem?_eq_some.mp hpk).1
  refine ⟨delete_fst_of_has hk, ?_, ?_, ?_, ?_, size_delete_of_has hk, ?_⟩
  · intro q hq
    obtain rfl : p = q := by
      rw [hp] at hq
      exact Option.some.inj hq
    by_cases hpl : p = m.keysArray.length - 1
    · rw [RandomAccessMap.delete_of_has_eq_last hk' hp hpl]
      refine ⟨by simp [hpl], fun hcon => absurd hpl hcon⟩
    · rw [RandomAccessMap.delete_of_has_ne_last hk' hp hpl]
      dsimp only
      refine ⟨by simp [hpl], fun _ => ?_⟩
      have hlast_lt : m.keysArray.length - 1 < m.keysArray.length := by omega
      obtain ⟨lk, hlk⟩ : ∃ w, m.keysArray[m.keysArray.length - 1]? = some w :=
        ⟨_, List.getElem?_eq_getElem hlast_lt⟩
      have hgetD : m.keysArray.getD (m.keysArray.length - 1) k = lk := by
        rw [List.getD_eq_getElem?_getD, hlk]
        rfl
      rw [hgetD]
      have hlkne : lk ≠ k := by
        intro hh
        subst hh
        exact hpl (getElem?_inj_of_nodup hInv.nodup_arr hpk hlk)
      rw [JsMap.getOp_delOp_ne _ hlkne, JsMap.getOp_setOp_self]
  · rw [RandomAccessMap.has, delete_base_of_has hk, JsMap.hasOp,
      JsMap.getOp_delOp_self _ _ hInv.nodup_base]
    rfl
  · rw [RandomAccessMap.get, delete_base_of_has hk]
    exact JsMap.getOp_delOp_self _ _ hInv.nodup_base
  · by_cases hpl : p = m.keysArray.length - 1
    · rw [RandomAccessMap.delete_of_has_eq_last hk' hp hpl]
      exact JsMap.getOp_delOp_self _ _ hInv.nodup_index
    · rw [RandomAccessMap.delete_of_has_ne_last hk' hp hpl]
      dsimp only
      have hlast_lt : m.keysArray.length - 1 < m.keysArray.length := by omega
      obtain ⟨lk, hlk⟩ : ∃ w, m.keysArray[m.keysArray.length - 1]? = some w :=
        ⟨_, List.getElem?_eq_getElem hlast_lt⟩
      have hgetD : m.keysArray.getD (m.keysArray.length - 1) k = lk := by
        rw [List.getD_eq_getElem?_getD, hlk]
        rfl
      rw [hgetD]
      have hlkarr : lk ∈ m.keysArray := List.getElem?_mem hlk
      have hlkidx : m.keyIndexMap.hasOp lk = true := by
        have := (hInv.index_dom lk).mpr hlkarr
        simpa [JsMap.hasOp] using this
      have hndset : ((m.keyIndexMap.setOp lk p).keys).Nodup := by
        rw [JsMap.keys_setOp_of_has _ _ hlkidx]
        exact hInv.nodup_index
      exact JsMap.getOp_delOp_self _ _ hndset
  · intro k' hne
    exact get_delete_ne m hne

/-- Witness for C2: deleting key 0 (which occupies slot 0, not the last
slot) from the two-key container `sample2`. -/
theorem C2_witness :
    (sample2.delete 0).1 = true ∧
    (∀ p : Nat, sample2.keyIndexMap.getOp 0 = some p →
      ((sample2.delete 0).2.keysArray =
        (if p ≠ sample2.keysArray.length - 1 then
            sample2.keysArray.set p
              (sample2.keysArray.getD (sample2.keysArray.length - 1) 0)
          else sample2.keysArray).dropLast) ∧
      (p ≠ sample2.keysArray.length - 1 →
        (sample2.delete 0).2.keyIndexMap.getOp
          (sample2.keysArray.getD (sample2.keysArray.length - 1) 0) = some p)) ∧
    (sample2.delete 0).2.has 0 = false ∧
    (sample2.delete 0).2.get 0 = none ∧
    (sample2.delete 0).2.keyIndexMap.getOp 0 = none ∧
    (sample2.delete 0).2.size + 1 = sample2.size ∧
    (∀ k' : Nat, k' ≠ 0 → (sample2.delete 0).2.get k' = sample2.get k') :=
  C2_delete_present sample2
    (reachable_inv (Reachable.set 1 11 (Reachable.set 0 10 Reachable.empty)))
    0 (by decide)

/-- C3: on a non-empty container satisfying the invariant, with the
random draw modelled as an integer `i` in `[0, size)`, every present
key is returned by `randomEntry` for exactly one value of `i` — the
induced distribution over entries is uniform, independent of insertion
order or recency. -/
theorem C3_uniform_selection (m : RandomAccessMap K V) (hInv : Inv m)
    (hne : m.size ≠ 0) (k : K) (hk : m.has k = true) :
    ∃! i : Nat, i < m.size ∧ ∃ v : V, m.randomEntry i = some (k, v) := by
  have hk' : m.base.hasOp k = true := hk
  have hkarr : k ∈ m.keysArray := (hInv.mem_arr k).mpr hk'
  have hidx : (m.keyIndexMap.getOp k).isSome = true := (hInv.index_dom k).mpr hkarr
  obtain ⟨p, hp⟩ : ∃ p, m.keyIndexMap.getOp k = some p := by
    rcases ho : m.keyIndexMap.getOp k with _ | p
    · rw [ho] at hidx
      cases hidx
    · exact ⟨p, rfl⟩
  have hpk : m.keysArray[p]? = some k := hInv.index_correct k p hp
  have hplt : p < m.keysArray.length := (List.getElem?_eq_some.mp hpk).1
  have hlen : m.keysArray.length = m.size := hInv.len_base
  obtain ⟨v, hv⟩ : ∃ v, m.base.getOp k = some v := by
    rcases hg : m.base.getOp k with _ | v
    · rw [RandomAccessMap.has, JsMap.hasOp, hg] at hk
      cases hk
    · exact ⟨v, rfl⟩
  refine ⟨p, ⟨by omega, v, randomEntry_eq_some (by omega) hpk hv⟩, ?_⟩
  rintro j ⟨_, v', hj'⟩
  obtain ⟨hjk, _⟩ := randomEntry_some_inv hj'
  exact getElem?_inj_of_nodup hInv.nodup_arr hjk hpk

/-- Witness for C3: in the two-key container `sample2`, key 0 is
returned for exactly one drawn index. -/
theorem C3_witness :
    ∃! i : Nat, i < sample2.size ∧
      ∃ v : Nat, sample2.randomEntry i = some (0, v) :=
  C3_uniform_selection sample2
    (reachable_inv (Reachable.set 1 11 (Reachable.set 0 10 Reachable.empty)))
    (by decide) 0 (by decide)

/-- C4: `randomEntry` on a container with zero entries returns the
empty marker and never fails; on an invariant-satisfying container,
for every drawn index `i < size` it returns the key stored at slot `i`
of the dense array paired with that key's current value — in
particular the returned key is present and carries its current
value. -/
theorem C4_randomEntry_behavior :
    (∀ (m : RandomAccessMap K V) (i : Nat), m.size = 0 →
      m.randomEntry i = none) ∧
    (∀ m : RandomAccessMap K V, Inv m → ∀ i : Nat, i < m.size →
      ∃ (k : K) (v : V), m.randomEntry i = some (k, v) ∧
        m.keysArray[i]? = some k ∧ m.has k = true ∧ m.get k = some v) := by
  constructor
  · intro m i hsz
    have hb : m.base = [] := List.eq_nil_of_length_eq_zero hsz
    rw [RandomAccessMap.randomEntry]
    by_cases hlen : m.keysArray.length = 0
    · rw [if_pos hlen]
    · rw [if_neg hlen]
      rcases m.keysArray[i]? with _ | key
      · rfl
      · dsimp only
        rw [hb]
        rfl
  · intro m hInv i hi
    have hlen : m.keysArray.length = m.size := hInv.len_base
    have hilt : i < m.keysArray.length := by omega
    obtain ⟨k, hik⟩ : ∃ k, m.keysArray[i]? = some k :=
      ⟨_, List.getElem?_eq_getElem hilt⟩
    have hkarr : k ∈ m.keysArray := List.getElem?_mem hik
    have hk : m.base.hasOp k = true := (hInv.mem_arr k).mp hkarr
    obtain ⟨v, hv⟩ : ∃ v, m.base.getOp k = some v := by
      rcases hg : m.base.getOp k with _ | v
      · rw [JsMap.hasOp, hg] at hk
        cases hk
      · exact ⟨v, rfl⟩
    exact ⟨k, v, randomEntry_eq_some (by omega) hik hv, hik, hk, hv⟩

/-- Witness for C4: the empty container yields the empty marker, and
`sample1` at drawn index 0 yields its unique present entry. -/
theorem C4_witness :
    ((RandomAccessMap.empty : RandomAccessMap Nat Nat).randomEntry 0 = none) ∧
    (∃ (k v : Nat), sample1.randomEntry 0 = some (k, v) ∧
      sample1.keysArray[0]? = some k ∧ sample1.has k = true ∧
      sample1.get k = some v) :=
  ⟨C4_randomEntry_behavior.1 RandomAccessMap.empty 0 rfl,
    C4_randomEntry_behavior.2 sample1
      (reachable_inv (Reachable.set 0 10 Reachable.empty)) 0 (by decide)⟩

/-- C5: `set k v` always succeeds: on an absent key it appends `k` to
the dense array, records the new position, stores the value, and grows
the size by exactly one; on a present key it only overwrites the value,
leaving the dense array, the index and the size untouched; and a second
`set` of the same key overwrites the value without creating a duplicate
entry or changing the size. -/
theorem C5_set_always_succeeds (m : RandomAccessMap K V) (k : K) (v : V) :
    (m.has k = false →
      (m.set k v).keysArray = m.keysArray ++ [k] ∧
      (m.set k v).keyIndexMap = m.keyIndexMap.setOp k m.keysArray.length ∧
      (m.set k v).get k = some v ∧
      (m.set k v).size = m.size + 1) ∧
    (m.has k = true →
      (m.set k v).keysArray = m.keysArray ∧
      (m.set k v).keyIndexMap = m.keyIndexMap ∧
      (m.set k v).get k = some v ∧
      (m.set k v).size = m.size) ∧
    (∀ v2 : V, ((m.set k v).set k v2).get k = some v2 ∧
      ((m.set k v).set k v2).size = (m.set k v).size) := by
  refine ⟨?_, ?_, ?_⟩
  · intro h
    refine ⟨?_, ?_, get_set_self m k v, size_set_of_not_has v h⟩
    · rw [RandomAccessMap.set_of_not_has v h]
    · rw [RandomAccessMap.set_of_not_has v h]
  · intro h
    refine ⟨?_, ?_, get_set_self m k v, size_set_of_has v h⟩
    · rw [RandomAccessMap.set_of_has v h]
    · rw [RandomAccessMap.set_of_has v h]
  · intro v2
    exact ⟨get_set_self _ k v2, size_set_of_has v2 (has_set_self m k v)⟩

/-- Witness for C5: inserting key 0 into the empty container, then
overwriting it in `sample1`, then overwriting twice in a row. -/
theorem C5_witness :
    (((RandomAccessMap.empty : RandomAccessMap Nat Nat).set 0 1).keysArray =
        (RandomAccessMap.empty : RandomAccessMap Nat Nat).keysArray ++ [0] ∧
      ((RandomAccessMap.empty : RandomAccessMap Nat Nat).set 0 1).keyIndexMap =
        (RandomAccessMap.empty : RandomAccessMap Nat Nat).keyIndexMap.setOp 0
          (RandomAccessMap.empty : RandomAccessMap Nat Nat).keysArray.length ∧
      ((RandomAccessMap.empty : RandomAccessMap Nat Nat).set 0 1).get 0 =
        some 1 ∧
      ((RandomAccessMap.empty : RandomAccessMap Nat Nat).set 0 1).size =
        (RandomAccessMap.empty : RandomAccessMap Nat Nat).size + 1) ∧
    ((sample1.set 0 99).keysArray = sample1.keysArray ∧
      (sample1.set 0 99).keyIndexMap = sample1.keyIndexMap ∧
      (sample1.set 0 99).get 0 = some 99 ∧
      (sample1.set 0 99).size = sample1.size) ∧
    (((sample1.set 0 99).set 0 42).get 0 = some 42 ∧
      ((sample1.set 0 99).set 0 42).size = (sample1.set 0 99).size) :=
  ⟨(C5_set_always_succeeds RandomAccessMap.empty 0 1).1 (by decide),
    (C5_set_always_succeeds sample1 0 99).2.1 (by decide),
    (C5_set_always_succeeds sample1 0 99).2.2 42⟩

/-- C6: deleting an absent key returns `false` and leaves the container
completely unchanged — same primary mapping, dense key array and
key-to-index map. -/
theorem C6_delete_absent (m : RandomAccessMap K V) (k : K)
    (h : m.has k = false) : m.delete k = (false, m) :=
  RandomAccessMap.delete_of_not_has h

/-- Witness for C6: deleting key 7 (absent) from `sample1`. -/
theorem C6_witness : sample1.delete 7 = (false, sample1) :=
  C6_delete_absent sample1 7 (by decide)

/-- C7: immediately after `set k v` the container satisfies
`get k = some v` and `has k = true`, and this persists across any
further call sequence whose calls neither delete `k` (a `clear`
deletes every key, `k` included) nor set `k` to a different value. -/
theorem C7_roundtrip (m : RandomAccessMap K V) (k : K) (v : V)
    (ops : List (Op K V)) (hops : ∀ op ∈ ops, preservesKey k v op) :
    (applyOps (m.set k v) ops).get k = some v ∧
    (applyOps (m.set k v) ops).has k = true := by
  have h1 := get_preserved_of_ops ops (m.set k v) k v (get_set_self m k v) hops
  exact ⟨h1, has_of_get_some h1⟩

/-- Witness for C7: key 0 set to 7 survives an unrelated insertion, an
unrelated deletion, and a re-`set` to the same value. -/
theorem C7_witness :
    (applyOps ((RandomAccessMap.empty : RandomAccessMap Nat Nat).set 0 7)
        [Op.set 1 5, Op.del 1, Op.set 0 7]).get 0 = some 7 ∧
    (applyOps ((RandomAccessMap.empty : RandomAccessMap Nat Nat).set 0 7)
        [Op.set 1 5, Op.del 1, Op.set 0 7]).has 0 = true :=
  C7_roundtrip RandomAccessMap.empty 0 7 [Op.set 1 5, Op.del 1, Op.set 0 7]
    (by
      intro op hop
      rcases List.mem_cons.mp hop with rfl | hop
      · exact Or.inl (by decide)
      rcases List.mem_cons.mp hop with rfl | hop
      · exact (by decide : (1 : Nat) ≠ 0)
      rcases List.mem_cons.mp hop with rfl | hop
      · exact Or.inr rfl
      · cases hop)

/-- C8 counterexample: for the sequence `set 0; delete 0; set 0` the
final size is 1, while the claimed formula "distinct keys ever set
minus successful deletes" gives 1 - 1 = 0 — re-inserting a previously
deleted key breaks the formula as stated. -/
theorem C8_counterexample :
    (applyOps (RandomAccessMap.empty : RandomAccessMap Nat Nat) c8ops).size = 1 ∧
    distinctKeysEverSet c8ops = 1 ∧
    succDeletesFrom (RandomAccessMap.empty : RandomAccessMap Nat Nat) c8ops = 1 ∧
    (applyOps (RandomAccessMap.empty : RandomAccessMap Nat Nat) c8ops).size ≠
      distinctKeysEverSet c8ops -
        succDeletesFrom (RandomAccessMap.empty : RandomAccessMap Nat Nat) c8ops := by
  decide

/-- C8 (amended): after any sequence of `set`/`delete`/`clear` calls
from a fresh container, the size equals the number of `set` calls whose
key was absent at the moment of the call minus the number of `delete`
calls that returned `true`, both counted since the most recent `clear`
(a `clear` resets the count together with the container). -/
theorem C8_size_accounting (ops : List (Op K V)) :
    (ops.foldl stepCounts (RandomAccessMap.empty, 0, 0)).1
        = applyOps RandomAccessMap.empty ops ∧
    (ops.foldl stepCounts (RandomAccessMap.empty, 0, 0)).1.size
        + (ops.foldl stepCounts (RandomAccessMap.empty, 0, 0)).2.2
      = (ops.foldl stepCounts (RandomAccessMap.empty, 0, 0)).2.1 :=
  stepCounts_spec ops RandomAccessMap.empty 0 0 rfl

/-- C9: constructing a `RandomAccessMap` from an optional batch of
pairs equals starting from the empty container and applying `set` to
each pair in order (the spec-side description `specBatchInit`), the
batch constructor argument being simply absent giving the empty
container — and the result satisfies invariants I1-I4. -/
theorem C9_constructor_refines (l : List (K × V)) :
    RandomAccessMap.ofEntries (some l) = specBatchInit l ∧
    RandomAccessMap.ofEntries (none : Option (List (K × V))) =
      (RandomAccessMap.empty : RandomAccessMap K V) ∧
    Inv (RandomAccessMap.ofEntries (some l)) :=
  ⟨setAll_eq_foldl l RandomAccessMap.empty, rfl,
    reachable_inv (reachable_setAll l Reachable.empty)⟩

/-- C10: `randomEntry` — and the reads `get`, `has` and `size` — never
mutate the container: written with explicit state passing, every branch
returns the container unchanged, and the value returned by the
state-passing version agrees with `randomEntry`. -/
theorem C10_reads_do_not_mutate (m : RandomAccessMap K V) (i : Nat) (k : K) :
    (m.randomEntryS i).2 = m ∧ (m.randomEntryS i).1 = m.randomEntry i ∧
    (m.getS k).2 = m ∧ (m.hasS k).2 = m ∧ m.sizeS.2 = m := by
  refine ⟨?_, ?_, rfl, rfl, rfl⟩
  · rw [RandomAccessMap.randomEntryS]
    by_cases hlen : m.keysArray.length = 0
    · rw [if_pos hlen]
    · rw [if_neg hlen]
      rcases m.keysArray[i]? with _ | key
      · rfl
      · dsimp only
        rcases m.base.getOp key with _ | v
        · rfl
        · rfl
  · rw [RandomAccessMap.randomEntryS, RandomAccessMap.randomEntry]
    by_cases hlen : m.keysArray.length = 0
    · rw [if_pos hlen, if_pos hlen]
    · rw [if_neg hlen, if_neg hlen]
      rcases m.keysArray[i]? with _ | key
      · rfl
      · dsimp only
        rcases m.base.getOp key with _ | v
        · rfl
        · rfl

end SnakeRam
